import Mathlib

/-! RayMarching: distance fields and the sphere-tracing loop

A shallow embedding of `RayMarching.go`.  The Go program works on `float64`;
every definition below is written once over an arbitrary linearly ordered
field `α` together with a square-root function `sqrt : α → α`, so that the
definitions stay executable, and the theorems instantiate them at `ℝ` with
`Real.sqrt` (float64 read as exact reals).

The process-wide variable `shapes` of the Go program is passed explicitly.
The drawing code (`Draw`, colours, window handling) does not touch the ray
or the shapes and is left out.
-/

namespace RayMarching

/-- Two-dimensional vector, `pixel.Vec` of the faiface/pixel library
(`type Vec struct { X, Y float64 }`). -/
@[ext]
structure Vec (α : Type) where
  X : α
  Y : α

variable {α : Type} [LinearOrderedField α]

/-- Component-wise sum, `pixel.Vec.Add`. -/
def Vec.Add (u v : Vec α) : Vec α := ⟨u.X + v.X, u.Y + v.Y⟩

/-- Component-wise difference, `pixel.Vec.Sub`. -/
def Vec.Sub (u v : Vec α) : Vec α := ⟨u.X - v.X, u.Y - v.Y⟩

/-- Multiplication by a scalar, `pixel.Vec.Scaled`. -/
def Vec.Scaled (u : Vec α) (c : α) : Vec α := ⟨u.X * c, u.Y * c⟩

/-- Length of a vector, `pixel.Vec.Len`, which is `math.Hypot(u.X, u.Y)`. -/
def Vec.Len (sqrt : α → α) (u : Vec α) : α := sqrt (u.X * u.X + u.Y * u.Y)

/-- Constant `MIN_RAY_DIST = 0.001`. -/
def MIN_RAY_DIST : α := 1 / 1000

/-- Constant `MAX_RAY_DIST = 2203`. -/
def MAX_RAY_DIST : α := 2203

/-- Geometry of `type Circle struct` (the two colour fields are only read by `Draw`). -/
structure Circle (α : Type) where
  Position : Vec α
  Radius : α

/-- Geometry of `type Rect struct` (the two colour fields are only read by `Draw`). -/
structure Rect (α : Type) where
  Min : Vec α
  Max : Vec α

/-- Method `func (c *Circle) Dist(p pixel.Vec) float64`. -/
def Circle.Dist (sqrt : α → α) (c : Circle α) (p : Vec α) : α :=
  (c.Position.Sub p).Len sqrt - c.Radius

/-- Method `func (r *Rect) Dist(p pixel.Vec) float64`. -/
def Rect.Dist (sqrt : α → α) (r : Rect α) (p : Vec α) : α :=
  let dx := max (max (r.Min.X - p.X) (p.X - r.Max.X)) 0
  let dy := max (max (r.Min.Y - p.Y) (p.Y - r.Max.Y)) 0
  sqrt (dx * dx + dy * dy)

/-- The implementations of `type Shape interface` present in the program. -/
inductive Shape (α : Type) where
  | circle (c : Circle α)
  | rect (r : Rect α)

/-- Dynamic dispatch of `Shape.Dist`. -/
def Shape.Dist (sqrt : α → α) : Shape α → Vec α → α
  | .circle c, p => c.Dist sqrt p
  | .rect r, p => r.Dist sqrt p

/-- Record `type Ray struct`. -/
structure Ray (α : Type) where
  Position : Vec α
  Direction : Vec α

/-- Constructor `NewRay(pos, rad)`; `cos` and `sin` stand for `math.Cos` and
`math.Sin`. -/
def NewRay (cos sin : α → α) (pos : Vec α) (rad : α) : Ray α := ⟨pos, ⟨cos rad, sin rad⟩⟩

/-- The `for i, s := range shapes` loop of `Ray.MinDist`: `i` is the loop
index and `min` the running minimum. -/
def Ray.MinDist.loop (sqrt : α → α) (p : Vec α) : List (Shape α) → Nat → α → α
  | [], _, min => min
  | s :: rest, i, min =>
    let dist := s.Dist sqrt p
    if i = 0 ∨ dist < min then
      Ray.MinDist.loop sqrt p rest (i + 1) dist
    else
      Ray.MinDist.loop sqrt p rest (i + 1) min

/-- Method `func (r *Ray) MinDist() float64`; `var min float64` starts at 0. -/
def Ray.MinDist (sqrt : α → α) (shapes : List (Shape α)) (r : Ray α) : α :=
  Ray.MinDist.loop sqrt r.Position shapes 0 0

/-- One pass through the body of the `for` loop of `Ray.March`, started
with ray `r` and accumulated distance `dist`: either the loop returns
`(hit, dist)` (left) or it goes round again with the advanced ray and the
increased distance (right). -/
def Ray.March.body (sqrt : α → α) (shapes : List (Shape α)) (r : Ray α) (dist : α) :
    (Bool × α) ⊕ (Ray α × α) :=
  let min := r.MinDist sqrt shapes
  if min < MIN_RAY_DIST then
    .inl (true, dist)
  else if min > MAX_RAY_DIST then
    .inl (false, -1)
  else
    .inr (⟨r.Position.Add (r.Direction.Scaled min), r.Direction⟩, dist + min)

/-- The `for` loop of `Ray.March`, run for at most `fuel` passes; `none`
means that the loop has not returned within `fuel` passes. -/
def Ray.March.loop (sqrt : α → α) (shapes : List (Shape α)) : Nat → Ray α → α → Option (Bool × α)
  | 0, _, _ => none
  | fuel + 1, r, dist =>
    match Ray.March.body sqrt shapes r dist with
    | .inl res => some res
    | .inr (r2, dist2) => Ray.March.loop sqrt shapes fuel r2 dist2

/-- Method `func (r *Ray) March() (hit bool, dist float64)`; the named
result `dist` starts at 0. -/
def Ray.March (sqrt : α → α) (shapes : List (Shape α)) (fuel : Nat) (r : Ray α) :
    Option (Bool × α) :=
  Ray.March.loop sqrt shapes fuel r 0

/-- The amounts `min` added to `dist` by the passes of the `March` loop that
go round again, in order, over at most `fuel` passes. -/
def Ray.March.steps (sqrt : α → α) (shapes : List (Shape α)) : Nat → Ray α → List α
  | 0, _ => []
  | fuel + 1, r =>
    match Ray.March.body sqrt shapes r 0 with
    | .inl _ => []
    | .inr (r2, _) => r.MinDist sqrt shapes :: Ray.March.steps sqrt shapes fuel r2

/-- The ray position and the accumulated distance at the top of each pass of
the `March` loop (the places where `r.Draw()` is called), over at most
`fuel` passes. -/
def Ray.March.visits (sqrt : α → α) (shapes : List (Shape α)) :
    Nat → Ray α → α → List (Vec α × α)
  | 0, _, _ => []
  | fuel + 1, r, dist =>
    (r.Position, dist) ::
      match Ray.March.body sqrt shapes r dist with
      | .inl _ => []
      | .inr (r2, dist2) => Ray.March.visits sqrt shapes fuel r2 dist2

/-- The three shapes that `run` appends to `shapes`: `r1`, `r2` and `ci`. -/
def runShapes : List (Shape α) :=
  [.rect ⟨⟨20, 20⟩, ⟨300, 300⟩⟩, .rect ⟨⟨1400, 300⟩, ⟨1700, 400⟩⟩, .circle ⟨⟨1000, 1000⟩, 40⟩]

/-- The ray origin `orig` that `run` starts with, `pixel.V(1920/2, 1080/2)`. -/
def runOrig : Vec α := ⟨960, 540⟩

/-! ## Geometric predicates in which the properties are stated -/

/-- Point `q` lies in the closed rectangle: `Min ≤ q ≤ Max` component-wise. -/
def Rect.Contains (r : Rect α) (q : Vec α) : Prop :=
  r.Min.X ≤ q.X ∧ q.X ≤ r.Max.X ∧ r.Min.Y ≤ q.Y ∧ q.Y ≤ r.Max.Y

/-- Point `q` lies strictly inside the rectangle (its open interior). -/
def Rect.Interior (r : Rect α) (q : Vec α) : Prop :=
  r.Min.X < q.X ∧ q.X < r.Max.X ∧ r.Min.Y < q.Y ∧ q.Y < r.Max.Y

/-- Point `q` lies on the boundary of the rectangle. -/
def Rect.Boundary (r : Rect α) (q : Vec α) : Prop :=
  r.Contains q ∧ ¬ r.Interior q

/-- Point `q` lies in the open disc of the circle. -/
def Circle.Interior (sqrt : α → α) (c : Circle α) (q : Vec α) : Prop :=
  (q.Sub c.Position).Len sqrt < c.Radius

/-- Point `q` lies on the circle line. -/
def Circle.Boundary (sqrt : α → α) (c : Circle α) (q : Vec α) : Prop :=
  (q.Sub c.Position).Len sqrt = c.Radius

/-- Point `q` lies strictly inside the shape. -/
def Shape.Interior (sqrt : α → α) : Shape α → Vec α → Prop
  | .circle c, q => c.Interior sqrt q
  | .rect r, _q => r.Interior _q

/-- Point `q` lies on the surface of the shape. -/
def Shape.Surface (sqrt : α → α) : Shape α → Vec α → Prop
  | .circle c, q => c.Boundary sqrt q
  | .rect r, _q => r.Boundary _q

/-- Constraints on the shapes: a circle has `Radius ≥ 0`, a rectangle has
`Min ≤ Max` component-wise. -/
def Shape.Valid : Shape α → Prop
  | .circle c => 0 ≤ c.Radius
  | .rect r => r.Min.X ≤ r.Max.X ∧ r.Min.Y ≤ r.Max.Y

/-- How far a shape reaches from the point `o`: every point at distance `t`
from `o` is at least `t - reach` away from the shape. -/
def Shape.reach (sqrt : α → α) (o : Vec α) : Shape α → α
  | .circle c => (c.Position.Sub o).Len sqrt + c.Radius
  | .rect r => (r.Min.Sub o).Len sqrt + (r.Max.Sub r.Min).Len sqrt

/-- The direction vector has length one. -/
def Vec.IsUnit (u : Vec α) : Prop := u.X * u.X + u.Y * u.Y = 1

instance (r : Rect α) (q : Vec α) : Decidable (r.Contains q) := by
  unfold Rect.Contains; infer_instance

instance (r : Rect α) (q : Vec α) : Decidable (r.Interior q) := by
  unfold Rect.Interior; infer_instance

instance (r : Rect α) (q : Vec α) : Decidable (r.Boundary q) := by
  unfold Rect.Boundary; infer_instance

instance (sqrt : α → α) (c : Circle α) (q : Vec α) : Decidable (c.Interior sqrt q) := by
  unfold Circle.Interior; infer_instance

instance (sqrt : α → α) (c : Circle α) (q : Vec α) : Decidable (c.Boundary sqrt q) := by
  unfold Circle.Boundary; infer_instance

instance (u : Vec α) : Decidable u.IsUnit := by
  unfold Vec.IsUnit; infer_instance

/-! ## The minimum over the shapes -/

theorem MinDist_loop_spec (sqrt : α → α) (p : Vec α) (l : List (Shape α)) :
    ∀ (i : Nat) (m : α), i ≠ 0 →
      Ray.MinDist.loop sqrt p l i m ≤ m ∧
      (∀ s ∈ l, Ray.MinDist.loop sqrt p l i m ≤ s.Dist sqrt p) ∧
      (Ray.MinDist.loop sqrt p l i m = m ∨
        ∃ s ∈ l, Ray.MinDist.loop sqrt p l i m = s.Dist sqrt p) := by
  induction l with
  | nil =>
    intro i m _
    simp [Ray.MinDist.loop]
  | cons s rest ih =>
    intro i m hi
    simp only [Ray.MinDist.loop, hi, false_or]
    by_cases hlt : s.Dist sqrt p < m
    · obtain ⟨h1, h2, h3⟩ := ih (i + 1) (s.Dist sqrt p) (Nat.succ_ne_zero i)
      simp only [hlt, if_true]
      refine ⟨le_trans h1 hlt.le, ?_, ?_⟩
      · intro t ht
        rcases List.mem_cons.mp ht with rfl | ht
        · exact h1
        · exact h2 t ht
      · rcases h3 with h3 | ⟨t, ht, h3⟩
        · exact Or.inr ⟨s, List.mem_cons_self _ _, h3⟩
        · exact Or.inr ⟨t, List.mem_cons_of_mem _ ht, h3⟩
    · obtain ⟨h1, h2, h3⟩ := ih (i + 1) m (Nat.succ_ne_zero i)
      simp only [hlt, if_false]
      refine ⟨h1, ?_, ?_⟩
      · intro t ht
        rcases List.mem_cons.mp ht with rfl | ht
        · exact le_trans h1 (not_lt.mp hlt)
        · exact h2 t ht
      · rcases h3 with h3 | ⟨t, ht, h3⟩
        · exact Or.inl h3
        · exact Or.inr ⟨t, List.mem_cons_of_mem _ ht, h3⟩

theorem MinDist_le (sqrt : α → α) (shapes : List (Shape α)) (r : Ray α) :
    ∀ s ∈ shapes, r.MinDist sqrt shapes ≤ s.Dist sqrt r.Position := by
  cases shapes with
  | nil => intro s hs; cases hs
  | cons s0 rest =>
    intro s hs
    obtain ⟨h1, h2, _⟩ :=
      MinDist_loop_spec sqrt r.Position rest 1 (s0.Dist sqrt r.Position) one_ne_zero
    simp only [Ray.MinDist, Ray.MinDist.loop, true_or, if_true]
    rcases List.mem_cons.mp hs with rfl | hs
    · exact h1
    · exact h2 s hs

theorem MinDist_attained (sqrt : α → α) (shapes : List (Shape α)) (r : Ray α)
    (hne : shapes ≠ []) :
    ∃ s ∈ shapes, r.MinDist sqrt shapes = s.Dist sqrt r.Position := by
  cases shapes with
  | nil => exact absurd rfl hne
  | cons s0 rest =>
    obtain ⟨_, _, h3⟩ :=
      MinDist_loop_spec sqrt r.Position rest 1 (s0.Dist sqrt r.Position) one_ne_zero
    simp only [Ray.MinDist, Ray.MinDist.loop, true_or, if_true]
    rcases h3 with h3 | ⟨t, ht, h3⟩
    · exact ⟨s0, List.mem_cons_self _ _, h3⟩
    · exact ⟨t, List.mem_cons_of_mem _ ht, h3⟩

theorem MinDist_nil (sqrt : α → α) (r : Ray α) : r.MinDist sqrt [] = 0 := rfl

/-! ## Plane geometry over the reals -/

theorem hypot_eq_abs (a b : ℝ) : Real.sqrt (a * a + b * b) = Complex.abs ⟨a, b⟩ := by
  rw [Complex.abs_apply, Complex.normSq_mk]

theorem hypot_add_le (a b c d : ℝ) :
    Real.sqrt ((a + c) * (a + c) + (b + d) * (b + d)) ≤
      Real.sqrt (a * a + b * b) + Real.sqrt (c * c + d * d) := by
  rw [hypot_eq_abs, hypot_eq_abs, hypot_eq_abs]
  exact Complex.abs.add_le ⟨a, b⟩ ⟨c, d⟩

theorem hypot_mono (a b c d : ℝ) (h1 : |a| ≤ |c|) (h2 : |b| ≤ |d|) :
    Real.sqrt (a * a + b * b) ≤ Real.sqrt (c * c + d * d) := by
  apply Real.sqrt_le_sqrt
  have e1 : a * a ≤ c * c := abs_le_iff_mul_self_le.mp h1
  have e2 : b * b ≤ d * d := abs_le_iff_mul_self_le.mp h2
  linarith

theorem hypot_scale (a b t : ℝ) (h : a * a + b * b = 1) :
    Real.sqrt ((a * t) * (a * t) + (b * t) * (b * t)) = |t| := by
  have e : (a * t) * (a * t) + (b * t) * (b * t) = t * t := by
    have : (a * t) * (a * t) + (b * t) * (b * t) = (a * a + b * b) * (t * t) := by ring
    rw [this, h, one_mul]
  rw [e, Real.sqrt_mul_self_eq_abs]

theorem axis_nonneg (lo hi x : ℝ) : 0 ≤ max (max (lo - x) (x - hi)) 0 := le_max_right _ _

theorem axis_le (lo hi x y : ℝ) (h1 : lo ≤ y) (h2 : y ≤ hi) :
    |max (max (lo - x) (x - hi)) 0| ≤ |x - y| := by
  rw [abs_of_nonneg (axis_nonneg lo hi x)]
  refine max_le (max_le ?_ ?_) (abs_nonneg _)
  · exact le_trans (by linarith) (neg_le_abs (x - y))
  · exact le_trans (by linarith) (le_abs_self (x - y))

theorem axis_zero (lo hi x : ℝ) (h1 : lo ≤ x) (h2 : x ≤ hi) :
    max (max (lo - x) (x - hi)) 0 = 0 := by
  apply max_eq_right
  exact max_le (by linarith) (by linarith)

theorem axis_nearest (lo hi x : ℝ) (h : lo ≤ hi) :
    ∃ y, lo ≤ y ∧ y ≤ hi ∧
      (x - y) * (x - y) = max (max (lo - x) (x - hi)) 0 * max (max (lo - x) (x - hi)) 0 := by
  rcases lt_or_le x lo with h1 | h1
  · refine ⟨lo, le_refl _, h, ?_⟩
    have e : max (max (lo - x) (x - hi)) 0 = lo - x := by
      rw [max_eq_left (by linarith : x - hi ≤ lo - x), max_eq_left (by linarith)]
    rw [e]; ring
  · rcases le_or_lt x hi with h2 | h2
    · refine ⟨x, h1, h2, ?_⟩
      rw [axis_zero lo hi x h1 h2]; ring
    · refine ⟨hi, h, le_refl _, ?_⟩
      have e : max (max (lo - x) (x - hi)) 0 = x - hi := by
        rw [max_eq_right (by linarith : lo - x ≤ x - hi), max_eq_left (by linarith)]
      rw [e]

theorem axis_far (lo hi x : ℝ) :
    |x - lo| ≤ max (max (lo - x) (x - hi)) 0 + |hi - lo| := by
  have h0 := axis_nonneg lo hi x
  have h1 : lo - x ≤ max (max (lo - x) (x - hi)) 0 :=
    le_trans (le_max_left _ _) (le_max_left _ _)
  have h2 : x - hi ≤ max (max (lo - x) (x - hi)) 0 :=
    le_trans (le_max_right _ _) (le_max_left _ _)
  have h3 := le_abs_self (hi - lo)
  have h4 := abs_nonneg (hi - lo)
  apply abs_le.mpr
  constructor <;> linarith

theorem axis_interior (lo hi x y : ℝ) (h1 : lo < y) (h2 : y < hi) :
    y = x ∨ max (max (lo - x) (x - hi)) 0 * max (max (lo - x) (x - hi)) 0 <
      (y - x) * (y - x) := by
  by_cases hxy : y = x
  · exact Or.inl hxy
  · right
    have hpos : 0 < |y - x| := abs_pos.mpr (sub_ne_zero.mpr hxy)
    have hlt : |max (max (lo - x) (x - hi)) 0| < |y - x| := by
      rw [abs_of_nonneg (axis_nonneg lo hi x)]
      refine max_lt (max_lt ?_ ?_) hpos
      · exact lt_of_lt_of_le (by linarith) (le_abs_self (y - x))
      · exact lt_of_lt_of_le (by linarith) (neg_le_abs (y - x))
    exact abs_lt_iff_mul_self_lt.mp hlt

theorem Len_nonneg (v : Vec ℝ) : 0 ≤ v.Len Real.sqrt := Real.sqrt_nonneg _

theorem Len_sub_comm (u v : Vec ℝ) : (u.Sub v).Len Real.sqrt = (v.Sub u).Len Real.sqrt := by
  simp only [Vec.Len, Vec.Sub]
  congr 1
  ring

theorem Len_triangle (u v w : Vec ℝ) :
    (u.Sub w).Len Real.sqrt ≤ (u.Sub v).Len Real.sqrt + (v.Sub w).Len Real.sqrt := by
  have h := hypot_add_le (u.X - v.X) (u.Y - v.Y) (v.X - w.X) (v.Y - w.Y)
  have ex : u.X - v.X + (v.X - w.X) = u.X - w.X := by ring
  have ey : u.Y - v.Y + (v.Y - w.Y) = u.Y - w.Y := by ring
  rw [ex, ey] at h
  exact h

theorem Len_along (o dir : Vec ℝ) (t : ℝ) (hu : dir.IsUnit) :
    ((o.Add (dir.Scaled t)).Sub o).Len Real.sqrt = |t| := by
  have h := hypot_scale dir.X dir.Y t hu
  simp only [Vec.Len, Vec.Sub, Vec.Add, Vec.Scaled]
  rw [← h]
  congr 1
  ring

theorem Len_between (o dir : Vec ℝ) (t u : ℝ) (hu : dir.IsUnit) :
    ((o.Add (dir.Scaled t)).Sub (o.Add (dir.Scaled u))).Len Real.sqrt = |t - u| := by
  have h := hypot_scale dir.X dir.Y (t - u) hu
  simp only [Vec.Len, Vec.Sub, Vec.Add, Vec.Scaled]
  rw [← h]
  congr 1
  ring

/-! ## The distance functions of the shapes -/

theorem Rect_Dist_le (r : Rect ℝ) (p q : Vec ℝ) (hq : r.Contains q) :
    r.Dist Real.sqrt p ≤ (p.Sub q).Len Real.sqrt := by
  obtain ⟨h1, h2, h3, h4⟩ := hq
  simp only [Rect.Dist, Vec.Len, Vec.Sub]
  exact hypot_mono _ _ _ _ (axis_le _ _ _ _ h1 h2) (axis_le _ _ _ _ h3 h4)

theorem Rect_Dist_inside (r : Rect ℝ) (p : Vec ℝ) (hp : r.Contains p) :
    r.Dist Real.sqrt p = 0 := by
  obtain ⟨h1, h2, h3, h4⟩ := hp
  simp only [Rect.Dist]
  rw [axis_zero _ _ _ h1 h2, axis_zero _ _ _ h3 h4]
  simp

theorem Rect_Dist_nearest (r : Rect ℝ) (p : Vec ℝ)
    (hx : r.Min.X ≤ r.Max.X) (hy : r.Min.Y ≤ r.Max.Y) :
    ∃ q, r.Contains q ∧ r.Dist Real.sqrt p = (p.Sub q).Len Real.sqrt := by
  obtain ⟨x, hx1, hx2, hx3⟩ := axis_nearest r.Min.X r.Max.X p.X hx
  obtain ⟨y, hy1, hy2, hy3⟩ := axis_nearest r.Min.Y r.Max.Y p.Y hy
  refine ⟨⟨x, y⟩, ⟨hx1, hx2, hy1, hy2⟩, ?_⟩
  simp only [Rect.Dist, Vec.Len, Vec.Sub]
  rw [hx3, hy3]

theorem Rect_Dist_nonneg (r : Rect ℝ) (p : Vec ℝ) : 0 ≤ r.Dist Real.sqrt p :=
  Real.sqrt_nonneg _

theorem Rect_Dist_far (r : Rect ℝ) (p : Vec ℝ) :
    (p.Sub r.Min).Len Real.sqrt - (r.Max.Sub r.Min).Len Real.sqrt ≤ r.Dist Real.sqrt p := by
  have h1 := hypot_mono _ _ _ _ (axis_far r.Min.X r.Max.X p.X |>.trans (le_abs_self _))
    (axis_far r.Min.Y r.Max.Y p.Y |>.trans (le_abs_self _))
  have h2 := hypot_add_le (max (max (r.Min.X - p.X) (p.X - r.Max.X)) 0)
    (max (max (r.Min.Y - p.Y) (p.Y - r.Max.Y)) 0) |r.Max.X - r.Min.X| |r.Max.Y - r.Min.Y|
  have h3 : Real.sqrt (|r.Max.X - r.Min.X| * |r.Max.X - r.Min.X| +
      |r.Max.Y - r.Min.Y| * |r.Max.Y - r.Min.Y|) = (r.Max.Sub r.Min).Len Real.sqrt := by
    simp only [Vec.Len, Vec.Sub, abs_mul_abs_self]
  rw [h3] at h2
  simp only [Rect.Dist, Vec.Len, Vec.Sub] at h1 h2 ⊢
  linarith

theorem Rect_safe (r : Rect ℝ) (p q : Vec ℝ) (hp : ¬ r.Interior p)
    (h : (q.Sub p).Len Real.sqrt ≤ r.Dist Real.sqrt p) : ¬ r.Interior q := by
  rintro ⟨h1, h2, h3, h4⟩
  have hsq : (q.X - p.X) * (q.X - p.X) + (q.Y - p.Y) * (q.Y - p.Y) ≤
      max (max (r.Min.X - p.X) (p.X - r.Max.X)) 0 * max (max (r.Min.X - p.X) (p.X - r.Max.X)) 0 +
      max (max (r.Min.Y - p.Y) (p.Y - r.Max.Y)) 0 *
        max (max (r.Min.Y - p.Y) (p.Y - r.Max.Y)) 0 := by
    simp only [Rect.Dist, Vec.Len, Vec.Sub] at h
    exact (Real.sqrt_le_sqrt_iff (add_nonneg (mul_self_nonneg _) (mul_self_nonneg _))).mp h
  have ax := abs_le_iff_mul_self_le.mp (axis_le r.Min.X r.Max.X p.X q.X h1.le h2.le)
  have ay := abs_le_iff_mul_self_le.mp (axis_le r.Min.Y r.Max.Y p.Y q.Y h3.le h4.le)
  have ex : (p.X - q.X) * (p.X - q.X) = (q.X - p.X) * (q.X - p.X) := by ring
  have ey : (p.Y - q.Y) * (p.Y - q.Y) = (q.Y - p.Y) * (q.Y - p.Y) := by ring
  rw [ex] at ax
  rw [ey] at ay
  rcases axis_interior r.Min.X r.Max.X p.X q.X h1 h2 with bx | bx
  · rcases axis_interior r.Min.Y r.Max.Y p.Y q.Y h3 h4 with by1 | by1
    · exact hp ⟨bx ▸ h1, bx ▸ h2, by1 ▸ h3, by1 ▸ h4⟩
    · linarith
  · linarith

theorem Circle_Dist_le (c : Circle ℝ) (p q : Vec ℝ) :
    c.Dist Real.sqrt p ≤ (q.Sub p).Len Real.sqrt + ((q.Sub c.Position).Len Real.sqrt - c.Radius) := by
  have h := Len_triangle c.Position q p
  rw [Len_sub_comm c.Position q] at h
  simp only [Circle.Dist]
  linarith

theorem Circle_safe (c : Circle ℝ) (p q : Vec ℝ)
    (h : (q.Sub p).Len Real.sqrt ≤ c.Dist Real.sqrt p) : ¬ c.Interior Real.sqrt q := by
  intro hq
  have h1 := Circle_Dist_le c p q
  simp only [Circle.Interior] at hq
  linarith

theorem Shape_safe (s : Shape ℝ) (p q : Vec ℝ) (hp : ¬ s.Interior Real.sqrt p)
    (h : (q.Sub p).Len Real.sqrt ≤ s.Dist Real.sqrt p) : ¬ s.Interior Real.sqrt q := by
  cases s with
  | circle c => exact Circle_safe c p q h
  | rect r => exact Rect_safe r p q hp h

theorem Shape_Dist_le_surface (s : Shape ℝ) (p q : Vec ℝ) (hq : s.Surface Real.sqrt q) :
    s.Dist Real.sqrt p ≤ (q.Sub p).Len Real.sqrt := by
  cases s with
  | circle c =>
    have h1 := Circle_Dist_le c p q
    simp only [Shape.Surface, Circle.Boundary] at hq
    simp only [Shape.Dist]
    linarith
  | rect r =>
    rw [Len_sub_comm q p]
    exact Rect_Dist_le r p q hq.1

theorem Shape_Dist_far (s : Shape ℝ) (o dir : Vec ℝ) (t : ℝ) (hu : dir.IsUnit) :
    t - s.reach Real.sqrt o ≤ s.Dist Real.sqrt (o.Add (dir.Scaled t)) := by
  have ht := Len_along o dir t hu
  have hle := le_abs_self t
  cases s with
  | circle c =>
    have h := Len_triangle (o.Add (dir.Scaled t)) c.Position o
    rw [Len_sub_comm (o.Add (dir.Scaled t)) c.Position] at h
    simp only [Shape.Dist, Shape.reach, Circle.Dist]
    linarith
  | rect r =>
    have h := Len_triangle (o.Add (dir.Scaled t)) r.Min o
    have h2 := Rect_Dist_far r (o.Add (dir.Scaled t))
    simp only [Shape.Dist, Shape.reach]
    linarith

/-! ## The March loop -/

theorem MinDist_singleton (sqrt : α → α) (s : Shape α) (r : Ray α) :
    r.MinDist sqrt [s] = s.Dist sqrt r.Position := by
  simp [Ray.MinDist, Ray.MinDist.loop]

theorem MIN_RAY_DIST_pos : (0 : α) < MIN_RAY_DIST := by
  unfold MIN_RAY_DIST
  positivity

theorem MIN_le_MAX : (MIN_RAY_DIST : α) ≤ MAX_RAY_DIST := by
  unfold MIN_RAY_DIST MAX_RAY_DIST
  rw [div_le_iff₀ (by positivity)]
  norm_num

theorem body_hit (sqrt : α → α) (shapes : List (Shape α)) (r : Ray α) (dist : α)
    (h : r.MinDist sqrt shapes < MIN_RAY_DIST) :
    Ray.March.body sqrt shapes r dist = .inl (true, dist) := by
  simp [Ray.March.body, h]

theorem body_miss (sqrt : α → α) (shapes : List (Shape α)) (r : Ray α) (dist : α)
    (h : MAX_RAY_DIST < r.MinDist sqrt shapes) :
    Ray.March.body sqrt shapes r dist = .inl (false, -1) := by
  have h1 : ¬ r.MinDist sqrt shapes < MIN_RAY_DIST :=
    not_lt.mpr (le_trans MIN_le_MAX h.le)
  simp [Ray.March.body, h, h1]

theorem body_next (sqrt : α → α) (shapes : List (Shape α)) (r : Ray α) (dist : α)
    (h1 : MIN_RAY_DIST ≤ r.MinDist sqrt shapes) (h2 : r.MinDist sqrt shapes ≤ MAX_RAY_DIST) :
    Ray.March.body sqrt shapes r dist =
      .inr (⟨r.Position.Add (r.Direction.Scaled (r.MinDist sqrt shapes)), r.Direction⟩,
        dist + r.MinDist sqrt shapes) := by
  simp [Ray.March.body, not_lt.mpr h1, not_lt.mpr h2]

theorem body_cases (sqrt : α → α) (shapes : List (Shape α)) (r : Ray α) (dist : α) :
    (r.MinDist sqrt shapes < MIN_RAY_DIST ∧
      Ray.March.body sqrt shapes r dist = .inl (true, dist)) ∨
    (MAX_RAY_DIST < r.MinDist sqrt shapes ∧
      Ray.March.body sqrt shapes r dist = .inl (false, -1)) ∨
    (MIN_RAY_DIST ≤ r.MinDist sqrt shapes ∧ r.MinDist sqrt shapes ≤ MAX_RAY_DIST ∧
      Ray.March.body sqrt shapes r dist =
        .inr (⟨r.Position.Add (r.Direction.Scaled (r.MinDist sqrt shapes)), r.Direction⟩,
          dist + r.MinDist sqrt shapes)) := by
  by_cases h1 : r.MinDist sqrt shapes < MIN_RAY_DIST
  · exact Or.inl ⟨h1, body_hit sqrt shapes r dist h1⟩
  · by_cases h2 : MAX_RAY_DIST < r.MinDist sqrt shapes
    · exact Or.inr (Or.inl ⟨h2, body_miss sqrt shapes r dist h2⟩)
    · exact Or.inr (Or.inr ⟨not_lt.mp h1, not_lt.mp h2,
        body_next sqrt shapes r dist (not_lt.mp h1) (not_lt.mp h2)⟩)

theorem loop_more_fuel (sqrt : α → α) (shapes : List (Shape α)) (res : Bool × α) :
    ∀ (fuel : Nat) (r : Ray α) (dist : α),
      Ray.March.loop sqrt shapes fuel r dist = some res →
      ∀ k, Ray.March.loop sqrt shapes (fuel + k) r dist = some res := by
  intro fuel
  induction fuel with
  | zero => intro r dist h; simp [Ray.March.loop] at h
  | succ n ih =>
    intro r dist h k
    rw [Nat.add_right_comm]
    rcases body_cases sqrt shapes r dist with ⟨_, hb⟩ | ⟨_, hb⟩ | ⟨_, _, hb⟩
    · simp only [Ray.March.loop, hb] at h ⊢
      exact h
    · simp only [Ray.March.loop, hb] at h ⊢
      exact h
    · simp only [Ray.March.loop, hb] at h ⊢
      exact ih _ _ h k

theorem loop_fuel_le (sqrt : α → α) (shapes : List (Shape α)) (res : Bool × α)
    (fuel fuel2 : Nat) (r : Ray α) (dist : α) (hle : fuel ≤ fuel2)
    (h : Ray.March.loop sqrt shapes fuel r dist = some res) :
    Ray.March.loop sqrt shapes fuel2 r dist = some res := by
  obtain ⟨k, rfl⟩ := Nat.exists_eq_add_of_le hle
  exact loop_more_fuel sqrt shapes res fuel r dist h k

theorem advance_eq (o dir : Vec α) (t m : α) :
    (o.Add (dir.Scaled t)).Add (dir.Scaled m) = o.Add (dir.Scaled (t + m)) := by
  ext
  · simp only [Vec.Add, Vec.Scaled]; ring
  · simp only [Vec.Add, Vec.Scaled]; ring

theorem MinDist_far (shapes : List (Shape ℝ)) (o dir : Vec ℝ) (K t : ℝ)
    (hne : shapes ≠ []) (hu : dir.IsUnit) (hK : ∀ s ∈ shapes, s.reach Real.sqrt o ≤ K) :
    t - K ≤ Ray.MinDist Real.sqrt shapes ⟨o.Add (dir.Scaled t), dir⟩ := by
  obtain ⟨s, hs, he⟩ := MinDist_attained Real.sqrt shapes ⟨o.Add (dir.Scaled t), dir⟩ hne
  rw [he]
  have h1 := Shape_Dist_far s o dir t hu
  have h2 := hK s hs
  linarith

theorem loop_returns (shapes : List (Shape ℝ)) (o dir : Vec ℝ) (K : ℝ)
    (hne : shapes ≠ []) (hu : dir.IsUnit) (hK : ∀ s ∈ shapes, s.reach Real.sqrt o ≤ K) :
    ∀ (n : Nat) (t dist : ℝ), MAX_RAY_DIST + K < t + n * MIN_RAY_DIST →
      ∃ res, Ray.March.loop Real.sqrt shapes (n + 1) ⟨o.Add (dir.Scaled t), dir⟩ dist =
        some res := by
  intro n
  induction n with
  | zero =>
    intro t dist h
    have hfar := MinDist_far shapes o dir K t hne hu hK
    have hm : MAX_RAY_DIST < Ray.MinDist Real.sqrt shapes ⟨o.Add (dir.Scaled t), dir⟩ := by
      simp only [Nat.cast_zero, zero_mul, add_zero] at h
      linarith
    exact ⟨(false, -1), by simp only [Ray.March.loop, body_miss Real.sqrt shapes _ dist hm]⟩
  | succ n ih =>
    intro t dist h
    rcases body_cases Real.sqrt shapes ⟨o.Add (dir.Scaled t), dir⟩ dist with
      ⟨_, hb⟩ | ⟨_, hb⟩ | ⟨h1, _, hb⟩
    · exact ⟨(true, dist), by simp only [Ray.March.loop, hb]⟩
    · exact ⟨(false, -1), by simp only [Ray.March.loop, hb]⟩
    · have hstep : MAX_RAY_DIST + K <
          (t + Ray.MinDist Real.sqrt shapes ⟨o.Add (dir.Scaled t), dir⟩) + n * MIN_RAY_DIST := by
        push_cast at h
        linarith
      obtain ⟨res, hres⟩ := ih _ (dist + Ray.MinDist Real.sqrt shapes ⟨o.Add (dir.Scaled t), dir⟩)
        hstep
      refine ⟨res, ?_⟩
      rw [Ray.March.loop, hb]
      simp only [advance_eq]
      exact hres

theorem exists_reach_bound (shapes : List (Shape ℝ)) (o : Vec ℝ) :
    ∃ K, ∀ s ∈ shapes, s.reach Real.sqrt o ≤ K := by
  induction shapes with
  | nil => exact ⟨0, fun s hs => by cases hs⟩
  | cons s0 rest ih =>
    obtain ⟨K, hK⟩ := ih
    refine ⟨max (s0.reach Real.sqrt o) K, ?_⟩
    intro s hs
    rcases List.mem_cons.mp hs with rfl | hs
    · exact le_max_left _ _
    · exact le_trans (hK s hs) (le_max_right _ _)

theorem scaled_zero (o dir : Vec α) : o.Add (dir.Scaled 0) = o := by
  ext
  · simp [Vec.Add, Vec.Scaled]
  · simp [Vec.Add, Vec.Scaled]

theorem March_returns_of_bound (shapes : List (Shape ℝ)) (r : Ray ℝ) (K : ℝ) (n : Nat)
    (hne : shapes ≠ []) (hu : r.Direction.IsUnit)
    (hK : ∀ s ∈ shapes, s.reach Real.sqrt r.Position ≤ K)
    (hn : MAX_RAY_DIST + K < n * MIN_RAY_DIST) :
    ∃ res, r.March Real.sqrt shapes (n + 1) = some res := by
  have h := loop_returns shapes r.Position r.Direction K hne hu hK n 0 0 (by linarith)
  rw [scaled_zero] at h
  exact h

theorem March_returns (shapes : List (Shape ℝ)) (r : Ray ℝ)
    (hne : shapes ≠ []) (hu : r.Direction.IsUnit) :
    ∃ fuel res, ∀ fuel2, fuel ≤ fuel2 → r.March Real.sqrt shapes fuel2 = some res := by
  obtain ⟨K, hK⟩ := exists_reach_bound shapes r.Position
  obtain ⟨n, hn⟩ := exists_nat_gt ((MAX_RAY_DIST + K) / MIN_RAY_DIST)
  rw [div_lt_iff₀ MIN_RAY_DIST_pos] at hn
  obtain ⟨res, hres⟩ := March_returns_of_bound shapes r K n hne hu hK hn
  exact ⟨n + 1, res, fun fuel2 hle =>
    loop_fuel_le Real.sqrt shapes res (n + 1) fuel2 r 0 hle hres⟩

theorem steps_bounds (sqrt : α → α) (shapes : List (Shape α)) :
    ∀ (fuel : Nat) (r : Ray α), ∀ s ∈ Ray.March.steps sqrt shapes fuel r,
      MIN_RAY_DIST ≤ s ∧ s ≤ MAX_RAY_DIST := by
  intro fuel
  induction fuel with
  | zero => intro r s hs; simp [Ray.March.steps] at hs
  | succ n ih =>
    intro r s hs
    rcases body_cases sqrt shapes r 0 with ⟨_, hb⟩ | ⟨_, hb⟩ | ⟨h1, h2, hb⟩
    · simp [Ray.March.steps, hb] at hs
    · simp [Ray.March.steps, hb] at hs
    · simp only [Ray.March.steps, hb, List.mem_cons] at hs
      rcases hs with rfl | hs
      · exact ⟨h1, h2⟩
      · exact ih _ s hs

theorem loop_result (sqrt : α → α) (shapes : List (Shape α)) (hit : Bool) (d : α) :
    ∀ (fuel : Nat) (r : Ray α) (dist : α),
      Ray.March.loop sqrt shapes fuel r dist = some (hit, d) →
      (hit = true → d = dist + (Ray.March.steps sqrt shapes fuel r).sum) ∧
      (hit = false → d = -1) := by
  intro fuel
  induction fuel with
  | zero => intro r dist h; simp [Ray.March.loop] at h
  | succ n ih =>
    intro r dist h
    rcases body_cases sqrt shapes r dist with ⟨h1, hb⟩ | ⟨h1, hb⟩ | ⟨h1, h2, hb⟩
    · have hb0 := body_hit sqrt shapes r 0 h1
      simp only [Ray.March.loop, hb, Option.some.injEq, Prod.mk.injEq] at h
      obtain ⟨rfl, rfl⟩ := h
      simp [Ray.March.steps, hb0]
    · simp only [Ray.March.loop, hb, Option.some.injEq, Prod.mk.injEq] at h
      obtain ⟨rfl, rfl⟩ := h
      simp
    · have hb0 := body_next sqrt shapes r 0 h1 h2
      simp only [Ray.March.loop, hb] at h
      obtain ⟨ih1, ih2⟩ := ih _ _ h
      refine ⟨fun ht => ?_, ih2⟩
      rw [ih1 ht]
      simp only [Ray.March.steps, hb0, List.sum_cons]
      ring

theorem steps_sum_nonneg (sqrt : α → α) (shapes : List (Shape α)) (fuel : Nat) (r : Ray α) :
    0 ≤ (Ray.March.steps sqrt shapes fuel r).sum := by
  apply List.sum_nonneg
  intro s hs
  exact le_trans MIN_RAY_DIST_pos.le (steps_bounds sqrt shapes fuel r s hs).1

theorem loop_clear (sqrt : α → α) (shapes : List (Shape α)) (o dir : Vec α)
    (hclear : ∀ t, 0 ≤ t → MIN_RAY_DIST ≤ Ray.MinDist sqrt shapes ⟨o.Add (dir.Scaled t), dir⟩)
    (res : Bool × α) :
    ∀ (fuel : Nat) (t dist : α), 0 ≤ t →
      Ray.March.loop sqrt shapes fuel ⟨o.Add (dir.Scaled t), dir⟩ dist = some res →
      res = (false, -1) := by
  intro fuel
  induction fuel with
  | zero => intro t dist _ h; simp [Ray.March.loop] at h
  | succ n ih =>
    intro t dist ht h
    rcases body_cases sqrt shapes ⟨o.Add (dir.Scaled t), dir⟩ dist with
      ⟨h1, _⟩ | ⟨_, hb⟩ | ⟨h1, _, hb⟩
    · exact absurd h1 (not_lt.mpr (hclear t ht))
    · simp only [Ray.March.loop, hb, Option.some.injEq] at h
      exact h.symm
    · simp only [Ray.March.loop, hb, advance_eq] at h
      exact ih _ _ (add_nonneg ht (le_trans MIN_RAY_DIST_pos.le h1)) h

theorem visits_inv (shapes : List (Shape ℝ)) (o dir : Vec ℝ) (hu : dir.IsUnit) :
    ∀ (fuel : Nat) (dist : ℝ), 0 ≤ dist →
      (∀ t, 0 ≤ t → t ≤ dist →
        ∀ s ∈ shapes, ¬ s.Interior Real.sqrt (o.Add (dir.Scaled t))) →
      ∀ pd ∈ Ray.March.visits Real.sqrt shapes fuel ⟨o.Add (dir.Scaled dist), dir⟩ dist,
        pd.1 = o.Add (dir.Scaled pd.2) ∧ 0 ≤ pd.2 ∧
        (∀ t, 0 ≤ t → t ≤ pd.2 →
          ∀ s ∈ shapes, ¬ s.Interior Real.sqrt (o.Add (dir.Scaled t))) := by
  intro fuel
  induction fuel with
  | zero => intro dist _ _ pd hpd; simp [Ray.March.visits] at hpd
  | succ n ih =>
    intro dist hd hinv pd hpd
    simp only [Ray.March.visits, List.mem_cons] at hpd
    rcases hpd with rfl | hpd
    · exact ⟨rfl, hd, hinv⟩
    · rcases body_cases Real.sqrt shapes ⟨o.Add (dir.Scaled dist), dir⟩ dist with
        ⟨_, hb⟩ | ⟨_, hb⟩ | ⟨h1, _, hb⟩
      · simp [hb] at hpd
      · simp [hb] at hpd
      · simp only [hb, advance_eq] at hpd
        have hm : 0 ≤ Ray.MinDist Real.sqrt shapes ⟨o.Add (dir.Scaled dist), dir⟩ :=
          le_trans MIN_RAY_DIST_pos.le h1
        refine ih _ (add_nonneg hd hm) ?_ pd hpd
        intro t ht0 ht s hs
        rcases le_or_lt t dist with hle | hlt
        · exact hinv t ht0 hle s hs
        · apply Shape_safe s (o.Add (dir.Scaled dist)) _ (hinv dist hd le_rfl s hs)
          rw [Len_between o dir t dist hu, abs_of_pos (by linarith)]
          have h2 := MinDist_le Real.sqrt shapes ⟨o.Add (dir.Scaled dist), dir⟩ s hs
          linarith

theorem hypot_scale_gen (a b t : ℝ) :
    Real.sqrt ((a * t) * (a * t) + (b * t) * (b * t)) = Real.sqrt (a * a + b * b) * |t| := by
  have e : (a * t) * (a * t) + (b * t) * (b * t) = (a * a + b * b) * (t * t) := by ring
  rw [e, Real.sqrt_mul (add_nonneg (mul_self_nonneg a) (mul_self_nonneg b)),
    Real.sqrt_mul_self_eq_abs]

theorem aim_lands (C O : Vec ℝ) (R : ℝ) (hR : 0 ≤ R)
    (hpos : 0 < (C.Sub O).Len Real.sqrt) :
    (C.Sub (O.Add (((C.Sub O).Scaled (1 / (C.Sub O).Len Real.sqrt)).Scaled
      ((C.Sub O).Len Real.sqrt - R)))).Len Real.sqrt = R := by
  have h := hypot_scale_gen (C.X - O.X) (C.Y - O.Y) (R / (C.Sub O).Len Real.sqrt)
  have e : Real.sqrt ((C.X - O.X) * (C.X - O.X) + (C.Y - O.Y) * (C.Y - O.Y)) =
      (C.Sub O).Len Real.sqrt := rfl
  rw [e, abs_of_nonneg (div_nonneg hR hpos.le), mul_div_cancel₀ R (ne_of_gt hpos)] at h
  generalize (C.Sub O).Len Real.sqrt = L at hpos h
  have hL : L ≠ 0 := ne_of_gt hpos
  have hx : C.X - (O.X + (C.X - O.X) * (1 / L) * (L - R)) = (C.X - O.X) * (R / L) := by
    field_simp
    ring
  have hy : C.Y - (O.Y + (C.Y - O.Y) * (1 / L) * (L - R)) = (C.Y - O.Y) * (R / L) := by
    field_simp
    ring
  simp only [Vec.Len, Vec.Sub, Vec.Add, Vec.Scaled]
  rw [hx, hy]
  exact h

theorem March_circle (c : Circle ℝ) (O : Vec ℝ) (hR : 0 ≤ c.Radius)
    (hpos : 0 < (c.Position.Sub O).Len Real.sqrt)
    (hmax : (c.Position.Sub O).Len Real.sqrt - c.Radius ≤ MAX_RAY_DIST) :
    Ray.March Real.sqrt [.circle c] 2
        ⟨O, (c.Position.Sub O).Scaled (1 / (c.Position.Sub O).Len Real.sqrt)⟩ =
      some (true, if (c.Position.Sub O).Len Real.sqrt - c.Radius < MIN_RAY_DIST then 0
        else 0 + ((c.Position.Sub O).Len Real.sqrt - c.Radius)) := by
  have hm : Ray.MinDist Real.sqrt [.circle c]
      ⟨O, (c.Position.Sub O).Scaled (1 / (c.Position.Sub O).Len Real.sqrt)⟩ =
      (c.Position.Sub O).Len Real.sqrt - c.Radius := by
    rw [MinDist_singleton]
    rfl
  by_cases h : (c.Position.Sub O).Len Real.sqrt - c.Radius < MIN_RAY_DIST
  · rw [if_pos h]
    unfold Ray.March
    rw [Ray.March.loop, body_hit _ _ _ _ (hm ▸ h)]
  · rw [if_neg h]
    unfold Ray.March
    rw [Ray.March.loop, body_next _ _ _ _ (hm ▸ not_lt.mp h) (hm ▸ hmax)]
    simp only [hm]
    have hm2 : Ray.MinDist Real.sqrt [.circle c]
        ⟨O.Add (((c.Position.Sub O).Scaled (1 / (c.Position.Sub O).Len Real.sqrt)).Scaled
          ((c.Position.Sub O).Len Real.sqrt - c.Radius)),
          (c.Position.Sub O).Scaled (1 / (c.Position.Sub O).Len Real.sqrt)⟩ < MIN_RAY_DIST := by
      rw [MinDist_singleton]
      simp only [Shape.Dist, Circle.Dist]
      rw [aim_lands c.Position O c.Radius hR hpos, sub_self]
      exact MIN_RAY_DIST_pos
    rw [Ray.March.loop, body_hit _ _ _ _ hm2]

theorem Len_example : (Vec.Sub ⟨1000, 1000⟩ ⟨0, 1000⟩).Len Real.sqrt = 1000 := by
  simp only [Vec.Len, Vec.Sub]
  rw [sub_zero, sub_self, mul_zero, add_zero]
  exact Real.sqrt_mul_self (by norm_num)

theorem March_example :
    Ray.March Real.sqrt [.circle ⟨⟨1000, 1000⟩, 40⟩] 2 ⟨⟨0, 1000⟩, ⟨1, 0⟩⟩ = some (true, 960) := by
  have h := March_circle ⟨⟨1000, 1000⟩, 40⟩ ⟨0, 1000⟩ (by norm_num)
    (by simp only [Len_example]; norm_num)
    (by simp only [Len_example]; unfold MAX_RAY_DIST; norm_num)
  simp only [Len_example] at h
  have e : (Vec.Sub ⟨1000, 1000⟩ ⟨0, 1000⟩ : Vec ℝ).Scaled (1 / 1000) = ⟨1, 0⟩ := by
    ext
    · simp only [Vec.Sub, Vec.Scaled]; norm_num
    · simp only [Vec.Sub, Vec.Scaled]; norm_num
  rw [e] at h
  rw [h]
  have hn : ¬ ((1000 : ℝ) - 40 < MIN_RAY_DIST) := by unfold MIN_RAY_DIST; norm_num
  rw [if_neg hn]
  norm_num

theorem wall_dist (x : ℝ) (h0 : 0 ≤ x) (h1 : x ≤ 3000000) :
    Ray.MinDist Real.sqrt [.rect ⟨⟨0, 0⟩, ⟨3000000, 1⟩⟩] ⟨⟨x, 2⟩, ⟨1, 0⟩⟩ = 1 := by
  rw [MinDist_singleton]
  simp only [Shape.Dist, Rect.Dist]
  rw [axis_zero 0 3000000 x h0 h1]
  have e : max (max ((0 : ℝ) - 2) (2 - 1)) 0 = 1 := by norm_num
  rw [e]
  norm_num

theorem wall_loop :
    ∀ (n : Nat) (x dist : ℝ), 0 ≤ x → x + n ≤ 3000001 →
      Ray.March.loop Real.sqrt [.rect ⟨⟨0, 0⟩, ⟨3000000, 1⟩⟩] n ⟨⟨x, 2⟩, ⟨1, 0⟩⟩ dist = none := by
  intro n
  induction n with
  | zero => intro x dist _ _; rfl
  | succ n ih =>
    intro x dist h0 h1
    push_cast at h1
    have hx : x ≤ 3000000 := by
      have : (0 : ℝ) ≤ n := Nat.cast_nonneg n
      linarith
    have hd := wall_dist x h0 hx
    have hb := body_next Real.sqrt [.rect ⟨⟨0, 0⟩, ⟨3000000, 1⟩⟩] ⟨⟨x, 2⟩, ⟨1, 0⟩⟩ dist
      (by rw [hd]; unfold MIN_RAY_DIST; norm_num) (by rw [hd]; unfold MAX_RAY_DIST; norm_num)
    rw [Ray.March.loop, hb]
    simp only [hd]
    have e : (Vec.Add ⟨x, 2⟩ (Vec.Scaled ⟨1, 0⟩ 1) : Vec ℝ) = ⟨x + 1, 2⟩ := by
      ext
      · simp only [Vec.Add, Vec.Scaled]; norm_num
      · simp only [Vec.Add, Vec.Scaled]; norm_num
    rw [e]
    exact ih (x + 1) (dist + 1) (by linarith) (by linarith)

theorem wall_visits :
    ∀ (n : Nat) (x dist y d : ℝ), 0 ≤ x → x + n ≤ 3000000 → y = x + n → d = dist + n →
      (⟨y, 2⟩, d) ∈ Ray.March.visits Real.sqrt [.rect ⟨⟨0, 0⟩, ⟨3000000, 1⟩⟩] (n + 1)
        ⟨⟨x, 2⟩, ⟨1, 0⟩⟩ dist := by
  intro n
  induction n with
  | zero =>
    intro x dist y d _ _ hy hd
    simp only [Nat.cast_zero, add_zero] at hy hd
    subst hy hd
    simp [Ray.March.visits]
  | succ n ih =>
    intro x dist y d h0 h1 hy hd
    push_cast at h1 hy hd
    have hx : x ≤ 3000000 := by
      have : (0 : ℝ) ≤ n := Nat.cast_nonneg n
      linarith
    have hdist := wall_dist x h0 hx
    have hb := body_next Real.sqrt [.rect ⟨⟨0, 0⟩, ⟨3000000, 1⟩⟩] ⟨⟨x, 2⟩, ⟨1, 0⟩⟩ dist
      (by rw [hdist]; unfold MIN_RAY_DIST; norm_num)
      (by rw [hdist]; unfold MAX_RAY_DIST; norm_num)
    rw [Ray.March.visits, hb]
    simp only [hdist]
    have e : (Vec.Add ⟨x, 2⟩ (Vec.Scaled ⟨1, 0⟩ 1) : Vec ℝ) = ⟨x + 1, 2⟩ := by
      ext
      · simp only [Vec.Add, Vec.Scaled]; norm_num
      · simp only [Vec.Add, Vec.Scaled]; norm_num
    rw [e]
    exact List.mem_cons_of_mem _
      (ih (x + 1) (dist + 1) y d (by linarith) (by linarith) (by linarith) (by linarith))

theorem NewRay_unit (pos : Vec ℝ) (rad : ℝ) :
    (NewRay Real.cos Real.sin pos rad).Direction.IsUnit := by
  simp only [NewRay, Vec.IsUnit]
  have h := Real.cos_sq_add_sin_sq rad
  nlinarith [h]

theorem runShapes_valid : ∀ s ∈ (runShapes : List (Shape ℝ)), s.Valid := by
  intro s hs
  simp only [runShapes, List.mem_cons, List.mem_singleton, List.not_mem_nil, or_false] at hs
  rcases hs with rfl | rfl | rfl <;> simp only [Shape.Valid] <;> norm_num

theorem unit_example : Vec.IsUnit (⟨1, 0⟩ : Vec ℝ) := by
  simp [Vec.IsUnit]

theorem runOrig_outside :
    ∀ s ∈ (runShapes : List (Shape ℝ)), ¬ s.Interior Real.sqrt runOrig := by
  intro s hs
  simp only [runShapes, List.mem_cons, List.mem_singleton, List.not_mem_nil, or_false] at hs
  rcases hs with rfl | rfl | rfl
  · simp only [Shape.Interior, Rect.Interior, runOrig]
    norm_num
  · simp only [Shape.Interior, Rect.Interior, runOrig]
    norm_num
  · simp only [Shape.Interior, Circle.Interior, Vec.Len, Vec.Sub, runOrig]
    rw [not_lt]
    apply Real.le_sqrt_of_sq_le
    norm_num

/-! ## Main results -/

/-- C1: reading float64 as exact reals, for a rectangle with `Min ≤ Max`
and any point `p`, `Rect.Dist p` is 0 when `p` lies inside or on the
rectangle, and it is the minimum of `|p - q|` over the points `q` of the
rectangle: some point of the rectangle is exactly that far from `p`, and no
point of the rectangle is nearer. -/
theorem Rect_Dist_is_euclidean (r : Rect ℝ) (p : Vec ℝ)
    (hx : r.Min.X ≤ r.Max.X) (hy : r.Min.Y ≤ r.Max.Y) :
    (r.Contains p → r.Dist Real.sqrt p = 0) ∧
    (∃ q, r.Contains q ∧ r.Dist Real.sqrt p = (p.Sub q).Len Real.sqrt) ∧
    (∀ q, r.Contains q → r.Dist Real.sqrt p ≤ (p.Sub q).Len Real.sqrt) :=
  ⟨Rect_Dist_inside r p, Rect_Dist_nearest r p hx hy, fun q hq => Rect_Dist_le r p q hq⟩

/-- Witness for C1, on the rectangle with corners (0,0) and (10,10):
`Dist (5,5) = 0`, `Dist (15,5) = 5`, `Dist (15,15) = sqrt 50`, and no point
of the rectangle is nearer to (15,15) than `sqrt 50`. -/
theorem Rect_Dist_is_euclidean_witness :
    Rect.Dist Real.sqrt ⟨⟨0, 0⟩, ⟨10, 10⟩⟩ ⟨5, 5⟩ = 0 ∧
    Rect.Dist Real.sqrt ⟨⟨0, 0⟩, ⟨10, 10⟩⟩ ⟨15, 5⟩ = 5 ∧
    Rect.Dist Real.sqrt ⟨⟨0, 0⟩, ⟨10, 10⟩⟩ ⟨15, 15⟩ = Real.sqrt 50 ∧
    (∀ q : Vec ℝ, Rect.Contains ⟨⟨0, 0⟩, ⟨10, 10⟩⟩ q →
      Real.sqrt 50 ≤ (Vec.Sub ⟨15, 15⟩ q).Len Real.sqrt) := by
  have e5 : max (max ((0 : ℝ) - 15) (15 - 10)) 0 = 5 := by norm_num
  have e0 : max (max ((0 : ℝ) - 5) (5 - 10)) 0 = 0 := by norm_num
  have h3 : Rect.Dist Real.sqrt ⟨⟨0, 0⟩, ⟨10, 10⟩⟩ ⟨15, 15⟩ = Real.sqrt 50 := by
    simp only [Rect.Dist, e5]
    norm_num
  refine ⟨?_, ?_, h3, ?_⟩
  · exact (Rect_Dist_is_euclidean ⟨⟨0, 0⟩, ⟨10, 10⟩⟩ ⟨5, 5⟩ (by norm_num) (by norm_num)).1
      (by simp only [Rect.Contains]; norm_num)
  · simp only [Rect.Dist, e5, e0]
    rw [mul_zero, add_zero]
    exact Real.sqrt_mul_self (by norm_num)
  · intro q hq
    rw [← h3]
    exact (Rect_Dist_is_euclidean ⟨⟨0, 0⟩, ⟨10, 10⟩⟩ ⟨15, 15⟩ (by norm_num)
      (by norm_num)).2.2 q hq

/-- C2: for a non-empty shape collection, `Ray.MinDist` is the minimum of the
shapes' `Dist` values at the ray position: it is at most the `Dist` of every
shape, it equals the `Dist` of one of them, and it is the same for every
reordering of the collection. -/
theorem MinDist_is_minimum (sqrt : α → α) (shapes : List (Shape α)) (r : Ray α)
    (hne : shapes ≠ []) :
    (∀ s ∈ shapes, r.MinDist sqrt shapes ≤ s.Dist sqrt r.Position) ∧
    (∃ s ∈ shapes, r.MinDist sqrt shapes = s.Dist sqrt r.Position) ∧
    (∀ shapes2, shapes.Perm shapes2 → r.MinDist sqrt shapes2 = r.MinDist sqrt shapes) := by
  refine ⟨MinDist_le sqrt shapes r, MinDist_attained sqrt shapes r hne, ?_⟩
  intro shapes2 hperm
  have hne2 : shapes2 ≠ [] := by
    intro h
    rw [h] at hperm
    exact hne hperm.eq_nil
  obtain ⟨s1, hs1, e1⟩ := MinDist_attained sqrt shapes r hne
  obtain ⟨s2, hs2, e2⟩ := MinDist_attained sqrt shapes2 r hne2
  apply le_antisymm
  · rw [e1]
    exact MinDist_le sqrt shapes2 r s1 (hperm.mem_iff.mp hs1)
  · rw [e2]
    exact MinDist_le sqrt shapes r s2 (hperm.mem_iff.mpr hs2)

/-- Witness for C2: the scene of `run`, queried at the starting origin, and
the same scene with its two rectangles swapped. -/
theorem MinDist_is_minimum_witness :
    (runShapes : List (Shape ℝ)) ≠ [] ∧
    (∀ s ∈ (runShapes : List (Shape ℝ)),
      Ray.MinDist Real.sqrt runShapes ⟨runOrig, ⟨1, 0⟩⟩ ≤ s.Dist Real.sqrt runOrig) ∧
    (∃ s ∈ (runShapes : List (Shape ℝ)),
      Ray.MinDist Real.sqrt runShapes ⟨runOrig, ⟨1, 0⟩⟩ = s.Dist Real.sqrt runOrig) ∧
    Ray.MinDist Real.sqrt
        [.rect ⟨⟨1400, 300⟩, ⟨1700, 400⟩⟩, .rect ⟨⟨20, 20⟩, ⟨300, 300⟩⟩,
          .circle ⟨⟨1000, 1000⟩, 40⟩] ⟨runOrig, ⟨1, 0⟩⟩ =
      Ray.MinDist Real.sqrt runShapes ⟨runOrig, ⟨1, 0⟩⟩ :=
  ⟨by simp [runShapes],
    (MinDist_is_minimum Real.sqrt runShapes ⟨runOrig, ⟨1, 0⟩⟩ (by simp [runShapes])).1,
    (MinDist_is_minimum Real.sqrt runShapes ⟨runOrig, ⟨1, 0⟩⟩ (by simp [runShapes])).2.1,
    (MinDist_is_minimum Real.sqrt runShapes ⟨runOrig, ⟨1, 0⟩⟩ (by simp [runShapes])).2.2 _
      (List.Perm.swap _ _ _)⟩

/-- C3: reading float64 as exact reals, for a non-empty scene of valid shapes
and any ray position `p`, no point on the surface of any shape lies in the
open ball of radius `MinDist p` around `p`. -/
theorem MinDist_safe_step (shapes : List (Shape ℝ)) (r : Ray ℝ)
    (_hne : shapes ≠ []) (_hvalid : ∀ s ∈ shapes, s.Valid) :
    ∀ s ∈ shapes, ∀ q, s.Surface Real.sqrt q →
      ¬ (q.Sub r.Position).Len Real.sqrt < r.MinDist Real.sqrt shapes := by
  intro s hs q hq
  have h1 := MinDist_le Real.sqrt shapes r s hs
  have h2 := Shape_Dist_le_surface s r.Position q hq
  exact not_lt.mpr (le_trans h1 h2)

/-- Witness for C3: the scene of `run`, queried at the starting origin. -/
theorem MinDist_safe_step_witness :
    (runShapes : List (Shape ℝ)) ≠ [] ∧ (∀ s ∈ (runShapes : List (Shape ℝ)), s.Valid) ∧
    (∀ s ∈ (runShapes : List (Shape ℝ)), ∀ q, s.Surface Real.sqrt q →
      ¬ (q.Sub runOrig).Len Real.sqrt < Ray.MinDist Real.sqrt runShapes ⟨runOrig, ⟨1, 0⟩⟩) :=
  ⟨by simp [runShapes], runShapes_valid,
    MinDist_safe_step runShapes ⟨runOrig, ⟨1, 0⟩⟩ (by simp [runShapes]) runShapes_valid⟩

/-- C4: reading float64 as exact reals, for a scene holding one circle with
centre `C` and radius `R ≥ 0`, and a ray whose origin `O` is outside the
circle, no farther than `MAX_RAY_DIST` from it, and whose direction is the
unit vector from `O` towards `C`, `March` returns (within two passes of its
loop) `hit = true` with a distance `d` such that
`|d - (|O - C| - R)| < MIN_RAY_DIST`. -/
theorem March_hits_circle (c : Circle ℝ) (r : Ray ℝ)
    (hR : 0 ≤ c.Radius)
    (hpos : 0 < (c.Position.Sub r.Position).Len Real.sqrt)
    (hout : c.Radius ≤ (c.Position.Sub r.Position).Len Real.sqrt)
    (hmax : (c.Position.Sub r.Position).Len Real.sqrt - c.Radius ≤ MAX_RAY_DIST)
    (hdir : r.Direction =
      (c.Position.Sub r.Position).Scaled (1 / (c.Position.Sub r.Position).Len Real.sqrt)) :
    ∃ d, (∀ fuel, 2 ≤ fuel → r.March Real.sqrt [.circle c] fuel = some (true, d)) ∧
      |d - ((c.Position.Sub r.Position).Len Real.sqrt - c.Radius)| < MIN_RAY_DIST := by
  obtain ⟨O, dir⟩ := r
  simp only at hpos hout hmax hdir ⊢
  subst hdir
  have h := March_circle c O hR hpos hmax
  refine ⟨_, fun fuel hf => loop_fuel_le Real.sqrt _ _ 2 fuel _ 0 hf h, ?_⟩
  by_cases hlt : (c.Position.Sub O).Len Real.sqrt - c.Radius < MIN_RAY_DIST
  · rw [if_pos hlt, zero_sub, abs_neg, abs_of_nonneg (by linarith)]
    exact hlt
  · rw [if_neg hlt, zero_add, sub_self, abs_zero]
    exact MIN_RAY_DIST_pos

/-- Witness for C4: centre (1000,1000), radius 40, origin (0,1000), direction
(1,0): `March` reports a hit at a distance within 0.001 of 960. -/
theorem March_hits_circle_witness :
    ∃ d : ℝ, Ray.March Real.sqrt [.circle ⟨⟨1000, 1000⟩, 40⟩] 2 ⟨⟨0, 1000⟩, ⟨1, 0⟩⟩ =
        some (true, d) ∧ |d - 960| < 1 / 1000 := by
  have e : (Vec.Sub ⟨1000, 1000⟩ ⟨0, 1000⟩ : Vec ℝ).Scaled (1 / 1000) = ⟨1, 0⟩ := by
    ext
    · simp only [Vec.Sub, Vec.Scaled]; norm_num
    · simp only [Vec.Sub, Vec.Scaled]; norm_num
  obtain ⟨d, h1, h2⟩ := March_hits_circle ⟨⟨1000, 1000⟩, 40⟩ ⟨⟨0, 1000⟩, ⟨1, 0⟩⟩
    (by norm_num)
    (by simp only [Len_example]; norm_num)
    (by simp only [Len_example]; norm_num)
    (by simp only [Len_example]; unfold MAX_RAY_DIST; norm_num)
    (by simp only [Len_example]; exact e.symm)
  refine ⟨d, h1 2 le_rfl, ?_⟩
  simp only [Len_example, MIN_RAY_DIST] at h2
  norm_num at h2 ⊢
  exact h2

/-- C5: reading float64 as exact reals, for a non-empty scene and a ray with
unit direction whose whole path stays clear of the shapes (`MinDist` at
`origin + t * direction` is at least `MIN_RAY_DIST` for every `t ≥ 0`),
`March` terminates and returns `hit = false` with distance `-1`. -/
theorem March_misses_when_clear (shapes : List (Shape ℝ)) (r : Ray ℝ)
    (hne : shapes ≠ []) (hu : r.Direction.IsUnit)
    (hclear : ∀ t, 0 ≤ t → MIN_RAY_DIST ≤
      Ray.MinDist Real.sqrt shapes ⟨r.Position.Add (r.Direction.Scaled t), r.Direction⟩) :
    ∃ fuel, ∀ fuel2, fuel ≤ fuel2 → r.March Real.sqrt shapes fuel2 = some (false, -1) := by
  obtain ⟨fuel, res, hres⟩ := March_returns shapes r hne hu
  refine ⟨fuel, fun fuel2 hle => ?_⟩
  have h := hres fuel2 hle
  have h0 : Ray.March.loop Real.sqrt shapes fuel2
      ⟨r.Position.Add (r.Direction.Scaled 0), r.Direction⟩ 0 = some res := by
    rw [scaled_zero]
    exact h
  rw [h, loop_clear Real.sqrt shapes r.Position r.Direction hclear res fuel2 0 0 le_rfl h0]

/-- Witness for C5: the unit circle at the origin and a ray that starts at
(2,0) and points away from it. -/
theorem March_misses_when_clear_witness :
    ∃ fuel, ∀ fuel2, fuel ≤ fuel2 →
      Ray.March Real.sqrt [.circle ⟨⟨0, 0⟩, 1⟩] fuel2 ⟨⟨2, 0⟩, ⟨1, 0⟩⟩ = some (false, -1) := by
  apply March_misses_when_clear [.circle ⟨⟨0, 0⟩, 1⟩] ⟨⟨2, 0⟩, ⟨1, 0⟩⟩ (by simp) unit_example
  intro t ht
  rw [MinDist_singleton]
  simp only [Shape.Dist, Circle.Dist, Vec.Len, Vec.Sub, Vec.Add, Vec.Scaled, MIN_RAY_DIST]
  have e : ((0 : ℝ) - (2 + 1 * t)) * (0 - (2 + 1 * t)) + (0 - (0 + 0 * t)) * (0 - (0 + 0 * t)) =
      (2 + t) * (2 + t) := by ring
  rw [e, Real.sqrt_mul_self (by linarith)]
  linarith

/-- C6: reading float64 as exact reals, for a non-empty scene of circles and
rectangles and a ray with a unit direction vector, the `March` loop returns
after finitely many passes: some amount of fuel is enough, and with any
larger amount the result is the same. -/
theorem March_terminates (shapes : List (Shape ℝ)) (r : Ray ℝ)
    (hne : shapes ≠ []) (hu : r.Direction.IsUnit) :
    ∃ fuel res, ∀ fuel2, fuel ≤ fuel2 → r.March Real.sqrt shapes fuel2 = some res :=
  March_returns shapes r hne hu

/-- Witness for C6: the scene of `run` and the ray `NewRay(orig, 0)`. -/
theorem March_terminates_witness :
    ∃ fuel res, ∀ fuel2, fuel ≤ fuel2 →
      Ray.March Real.sqrt runShapes fuel2 (NewRay Real.cos Real.sin runOrig 0) = some res :=
  March_terminates runShapes (NewRay Real.cos Real.sin runOrig 0) (by simp [runShapes])
    (NewRay_unit runOrig 0)

/-- C7, as the code behaves, reading float64 as exact reals: for a non-empty
scene and a ray with unit direction, `March` returns within `n + 1` passes
of its loop for every `n` with `n * MIN_RAY_DIST > MAX_RAY_DIST + K`, where
`K` bounds the reach of every shape from the ray origin; `MAX_RAY_DIST`
bounds each single step, not the total distance travelled.  The statement is
about exact real arithmetic only: in float64 a step can be rounded away
(`1e16 + 0.5 = 1e16`), and then the position no longer advances. -/
theorem March_pass_bound (shapes : List (Shape ℝ)) (r : Ray ℝ) (K : ℝ) (n : Nat)
    (hne : shapes ≠ []) (hu : r.Direction.IsUnit)
    (hK : ∀ s ∈ shapes, s.reach Real.sqrt r.Position ≤ K)
    (hn : MAX_RAY_DIST + K < n * MIN_RAY_DIST) :
    (∃ res, r.March Real.sqrt shapes (n + 1) = some res) ∧
    (∀ fuel, ∀ s ∈ Ray.March.steps Real.sqrt shapes fuel r, s ≤ MAX_RAY_DIST) :=
  ⟨March_returns_of_bound shapes r K n hne hu hK hn,
    fun fuel s hs => (steps_bounds Real.sqrt shapes fuel r s hs).2⟩

/-- Witness for C7 as the code behaves, over the reals: one circle with
centre (1000,1000) and radius 40, reach 1040 from the origin (0,1000). -/
theorem March_pass_bound_witness :
    ∃ res, Ray.March Real.sqrt [.circle ⟨⟨1000, 1000⟩, 40⟩] (3243001 + 1)
      ⟨⟨0, 1000⟩, ⟨1, 0⟩⟩ = some res :=
  (March_pass_bound [.circle ⟨⟨1000, 1000⟩, 40⟩] ⟨⟨0, 1000⟩, ⟨1, 0⟩⟩ 1040 3243001
    (by simp) unit_example
    (by
      intro s hs
      rw [List.mem_singleton.mp hs]
      simp only [Shape.reach, Len_example]
      norm_num)
    (by unfold MAX_RAY_DIST MIN_RAY_DIST; norm_num)).1

/-- C7 as stated fails: beside a rectangle 3000000 long, a ray running along
it at distance 1 takes steps of exactly 1; after 2203001 passes the loop has
not returned, and at its 2203001st pass the accumulated distance is 2203000,
far beyond `MAX_RAY_DIST`.  Every number on this run is an integer below
`2^53`, so the run is the same in float64 and in exact real arithmetic. -/
theorem March_pass_bound_fails :
    ([.rect ⟨⟨0, 0⟩, ⟨3000000, 1⟩⟩] : List (Shape ℝ)) ≠ [] ∧
    Vec.IsUnit (⟨1, 0⟩ : Vec ℝ) ∧
    Ray.March Real.sqrt [.rect ⟨⟨0, 0⟩, ⟨3000000, 1⟩⟩] 2203001 ⟨⟨0, 2⟩, ⟨1, 0⟩⟩ = none ∧
    ((⟨2203000, 2⟩, 2203000) ∈
      Ray.March.visits Real.sqrt [.rect ⟨⟨0, 0⟩, ⟨3000000, 1⟩⟩] 2203001 ⟨⟨0, 2⟩, ⟨1, 0⟩⟩ 0) ∧
    (MAX_RAY_DIST : ℝ) < 2203000 :=
  ⟨by simp, unit_example,
    wall_loop 2203001 0 0 le_rfl (by norm_num),
    wall_visits 2203000 0 0 2203000 2203000 le_rfl (by norm_num) (by norm_num) (by norm_num),
    by unfold MAX_RAY_DIST; norm_num⟩

/-- C8, as the code behaves: on an empty shape collection `MinDist` returns
0, the initial value of its running minimum, and `March` returns
`hit = true` with distance 0 at its first pass; nothing rejects the empty
scene and there is no sentinel. -/
theorem empty_scene_hits (sqrt : α → α) (r : Ray α) (fuel : Nat) :
    r.MinDist sqrt [] = 0 ∧ r.March sqrt [] (fuel + 1) = some (true, 0) := by
  refine ⟨rfl, ?_⟩
  have h : r.MinDist sqrt [] < MIN_RAY_DIST := by
    rw [MinDist_nil]
    exact MIN_RAY_DIST_pos
  unfold Ray.March
  rw [Ray.March.loop, body_hit sqrt [] r 0 h]

/-- C8 as stated fails: for the empty scene and the ray from (0,0) in
direction (1,0), `MinDist` is the ordinary distance 0 and `March` reports a
hit. -/
theorem empty_scene_not_rejected :
    Ray.MinDist Real.sqrt [] ⟨⟨0, 0⟩, ⟨1, 0⟩⟩ = 0 ∧
    Ray.March Real.sqrt [] 1 ⟨⟨0, 0⟩, ⟨1, 0⟩⟩ = some (true, 0) := by
  refine ⟨rfl, ?_⟩
  have h : Ray.MinDist Real.sqrt [] ⟨⟨0, 0⟩, ⟨1, 0⟩⟩ < MIN_RAY_DIST := by
    rw [MinDist_nil]
    exact MIN_RAY_DIST_pos
  unfold Ray.March
  rw [Ray.March.loop, body_hit Real.sqrt [] _ 0 h]

/-- C9: in every `March` call each step that is added to the accumulated
distance is at least `MIN_RAY_DIST`, which is positive; when `March` returns
`hit = true` the distance is non-negative, equals the sum of the steps
taken and is not `-1`; when it returns `hit = false` the distance is `-1`. -/
theorem March_result_sound (sqrt : α → α) (shapes : List (Shape α)) (fuel : Nat) (r : Ray α)
    (hit : Bool) (d : α) (h : r.March sqrt shapes fuel = some (hit, d)) :
    (0 : α) < MIN_RAY_DIST ∧
    (∀ s ∈ Ray.March.steps sqrt shapes fuel r, MIN_RAY_DIST ≤ s) ∧
    (hit = true →
      0 ≤ d ∧ d = (Ray.March.steps sqrt shapes fuel r).sum ∧ d ≠ -1) ∧
    (hit = false → d = -1) := by
  obtain ⟨h1, h2⟩ := loop_result sqrt shapes hit d fuel r 0 h
  have hs := steps_sum_nonneg sqrt shapes fuel r
  refine ⟨MIN_RAY_DIST_pos, fun s hs => (steps_bounds sqrt shapes fuel r s hs).1, ?_, h2⟩
  intro ht
  have hd : d = (Ray.March.steps sqrt shapes fuel r).sum := by rw [h1 ht, zero_add]
  refine ⟨hd ▸ hs, hd, ?_⟩
  intro hneg
  rw [hneg] at hd
  rw [← hd] at hs
  linarith

/-- Witness for C9: the hit on the circle of radius 40 at (1000,1000) from
(0,1000), at distance 960. -/
theorem March_result_sound_witness :
    Ray.March Real.sqrt [.circle ⟨⟨1000, 1000⟩, 40⟩] 2 ⟨⟨0, 1000⟩, ⟨1, 0⟩⟩ = some (true, 960) ∧
    (960 : ℝ) =
      (Ray.March.steps Real.sqrt [.circle ⟨⟨1000, 1000⟩, 40⟩] 2 ⟨⟨0, 1000⟩, ⟨1, 0⟩⟩).sum ∧
    (960 : ℝ) ≠ -1 :=
  ⟨March_example,
    ((March_result_sound Real.sqrt [.circle ⟨⟨1000, 1000⟩, 40⟩] 2 ⟨⟨0, 1000⟩, ⟨1, 0⟩⟩ true 960
      March_example).2.2.1 rfl).2.1,
    ((March_result_sound Real.sqrt [.circle ⟨⟨1000, 1000⟩, 40⟩] 2 ⟨⟨0, 1000⟩, ⟨1, 0⟩⟩ true 960
      March_example).2.2.1 rfl).2.2⟩

/-- C10: reading float64 as exact reals, for a non-empty scene of valid
shapes and a ray with unit direction whose origin is not strictly inside any
shape, every position that `March` visits equals
`origin + (accumulated distance) * direction`, and no point of the path from
the origin up to that position, the position included, is strictly inside
any shape. -/
theorem March_stays_outside (shapes : List (Shape ℝ)) (r : Ray ℝ) (fuel : Nat)
    (_hne : shapes ≠ []) (_hvalid : ∀ s ∈ shapes, s.Valid) (hu : r.Direction.IsUnit)
    (hout : ∀ s ∈ shapes, ¬ s.Interior Real.sqrt r.Position) :
    ∀ pd ∈ Ray.March.visits Real.sqrt shapes fuel r 0,
      pd.1 = r.Position.Add (r.Direction.Scaled pd.2) ∧
      (∀ s ∈ shapes, ¬ s.Interior Real.sqrt pd.1) ∧
      (∀ t, 0 ≤ t → t ≤ pd.2 →
        ∀ s ∈ shapes, ¬ s.Interior Real.sqrt (r.Position.Add (r.Direction.Scaled t))) := by
  intro pd hpd
  have hinv : ∀ t, 0 ≤ t → t ≤ (0 : ℝ) →
      ∀ s ∈ shapes, ¬ s.Interior Real.sqrt (r.Position.Add (r.Direction.Scaled t)) := by
    intro t h0 h1 s hs
    rw [le_antisymm h1 h0, scaled_zero]
    exact hout s hs
  have hpd2 : pd ∈ Ray.March.visits Real.sqrt shapes fuel
      ⟨r.Position.Add (r.Direction.Scaled 0), r.Direction⟩ 0 := by
    rw [scaled_zero]
    exact hpd
  obtain ⟨h1, h2, h3⟩ := visits_inv shapes r.Position r.Direction hu fuel 0 le_rfl hinv pd hpd2
  refine ⟨h1, ?_, h3⟩
  intro s hs
  rw [h1]
  exact h3 pd.2 h2 le_rfl s hs

/-- Witness for C10: the scene of `run` and a ray from the starting origin
in direction (1,0), over the first three passes of the loop. -/
theorem March_stays_outside_witness :
    (runShapes : List (Shape ℝ)) ≠ [] ∧ (∀ s ∈ (runShapes : List (Shape ℝ)), s.Valid) ∧
    Vec.IsUnit (⟨1, 0⟩ : Vec ℝ) ∧
    (∀ s ∈ (runShapes : List (Shape ℝ)), ¬ s.Interior Real.sqrt runOrig) ∧
    (∀ pd ∈ Ray.March.visits Real.sqrt runShapes 3 ⟨runOrig, ⟨1, 0⟩⟩ 0,
      pd.1 = runOrig.Add (Vec.Scaled ⟨1, 0⟩ pd.2) ∧
      (∀ s ∈ (runShapes : List (Shape ℝ)), ¬ s.Interior Real.sqrt pd.1)) :=
  ⟨by simp [runShapes], runShapes_valid, unit_example, runOrig_outside, fun pd hpd =>
    ⟨(March_stays_outside runShapes ⟨runOrig, ⟨1, 0⟩⟩ 3 (by simp [runShapes]) runShapes_valid
        unit_example runOrig_outside pd hpd).1,
      (March_stays_outside runShapes ⟨runOrig, ⟨1, 0⟩⟩ 3 (by simp [runShapes]) runShapes_valid
        unit_example runOrig_outside pd hpd).2.1⟩⟩

end RayMarching
